import Mathlib

/-!
Verification of the bitwise five-card poker hand evaluator.

The evaluator is shallowly embedded below.  JavaScript numbers are modelled
as `Nat` (or `Int` where the source can go negative): for the inputs the
theorems quantify over (ranks in [2,14]) every intermediate value of the
source is a nonnegative integer that is exactly representable in a 64-bit
float, all float divisions feeding a bitwise operator are exact and then
truncated, and `ToInt32` wrapping followed by `& 15` agrees with `% 16`,
so the embedding and the source compute the same numbers.
-/

namespace WheelerDealer

/-- HandRank enum value `highCard = 0`. -/
def HandRank.highCard : Nat := 0
/-- HandRank enum value `pair = 1`. -/
def HandRank.pair : Nat := 1
/-- HandRank enum value `twoPair = 2`. -/
def HandRank.twoPair : Nat := 2
/-- HandRank enum value `trips = 3`. -/
def HandRank.trips : Nat := 3
/-- HandRank enum value `straight = 4`. -/
def HandRank.straight : Nat := 4
/-- HandRank enum value `flush = 5`. -/
def HandRank.flush : Nat := 5
/-- HandRank enum value `fullHouse = 6`. -/
def HandRank.fullHouse : Nat := 6
/-- HandRank enum value `quads = 7`. -/
def HandRank.quads : Nat := 7
/-- HandRank enum value `straightFlush = 8`. -/
def HandRank.straightFlush : Nat := 8
/-- HandRank enum value `royalFlush = 9`. -/
def HandRank.royalFlush : Nat := 9

/-- `const WHEEL_HASH = 0x403c` (rank bits of A,2,3,4,5). -/
def WHEEL_HASH : Nat := 0x403c

/-- `const BROADWAY_HASH = 0x7c00` (rank bits of A,K,Q,J,T). -/
def BROADWAY_HASH : Nat := 0x7c00

/-- The `Rank` record: card rank character to numeric rank.  A missing key
yields `undefined` in the source, which no well-formed card string produces;
the embedding returns 0 there. -/
def Rank (c : Char) : Nat :=
  if c = 'A' then 14
  else if c = 'K' then 13
  else if c = 'Q' then 12
  else if c = 'J' then 11
  else if c = 'T' then 10
  else if c = '9' then 9
  else if c = '8' then 8
  else if c = '7' then 7
  else if c = '6' then 6
  else if c = '5' then 5
  else if c = '4' then 4
  else if c = '3' then 3
  else if c = '2' then 2
  else 0

/-- The `Suit` record: suit character to one-hot suit code (missing key
modelled as 0, see `Rank`). -/
def Suit (c : Char) : Nat :=
  if c = 's' then 1
  else if c = 'c' then 2
  else if c = 'h' then 4
  else if c = 'd' then 8
  else 0

/-- JS `String.prototype.trim` restricted to spaces (the only whitespace a
hand string contains); strings are modelled as `List Char`. -/
def trimSpaces (s : List Char) : List Char :=
  ((s.dropWhile (· = ' ')).reverse.dropWhile (· = ' ')).reverse

/-- Worker for `splitOnSpace`: JS `split(" ")` cuts at every single space. -/
def splitOnSpaceGo : List Char → List Char → List (List Char)
  | [], acc => [acc.reverse]
  | c :: rest, acc =>
      if c = ' ' then acc.reverse :: splitOnSpaceGo rest []
      else splitOnSpaceGo rest (c :: acc)

/-- `handNotation.split(" ")`. -/
def splitOnSpace (s : List Char) : List (List Char) := splitOnSpaceGo s []

/-- `parseHandFromString`: split the hand string into cards, map the first
character of each card through `Rank` and the lowercased second character
through `Suit` (`charAt` out of range yields the empty string in JS, which
matches no record key; modelled by a `' '` default hitting the 0 branch). -/
def parseHandFromString (s : String) : List Nat × List Nat :=
  let cards := splitOnSpace (trimSpaces s.toList)
  (cards.map fun c => Rank (c.getD 0 ' '),
   cards.map fun c => Suit ((c.getD 1 ' ').toLower))

/-- `countRanksBitwise`: OR a bit `1 << rank` into the accumulator for each
of the five cards. -/
def countRanksBitwise (handRanks : List Nat) : Nat :=
  handRanks.foldl (fun bitValue r => bitValue ||| (1 <<< r)) 0

/-- `countDuplicatesBitwise`: for each card, `value += offset * ((value/offset
& 15) + 1)` with `offset = 2^(rank*4) = 16^rank`.  The `i = -1` priming
iteration of the source adds `0` and is dropped; the float division is exact
and `ToInt32` then `& 15` equals `% 16` here, giving the `Nat` step below. -/
def countDuplicatesBitwise (handRanks : List Nat) : Nat :=
  handRanks.foldl (fun value r => value + 16 ^ r * (value / 16 ^ r % 16 + 1)) 0

/-- `btRanks & -btRanks` on 32-bit two's complement: the lowest set bit. -/
def lowestBit (n : Nat) : Nat := n.land (2 ^ 32 - n)

/-- The straight test `btRanks / (btRanks & -btRanks) == 31 || btRanks ===
WHEEL_HASH`.  The JS division is exact real division, so equality with 31
holds iff `btRanks = 31 * lowestBit btRanks` with a nonzero divisor
(`0/0` is `NaN`, which compares unequal to 31). -/
def isStraightCheck (btRanks : Nat) : Bool :=
  (decide (lowestBit btRanks ≠ 0) && decide (btRanks = 31 * lowestBit btRanks))
    || decide (btRanks = WHEEL_HASH)

/-- The flush test `suits[0] === (suits[1] | suits[2] | suits[3] | suits[4])`
(out-of-range indices never occur on five-card input). -/
def isFlushCheck (suits : List Nat) : Bool :=
  suits.getD 0 0 == (suits.getD 1 0 ||| suits.getD 2 0 ||| suits.getD 3 0 ||| suits.getD 4 0)

/-- The category half of the `POKER_HASH` table, keyed by the mod-15
duplicate signature (other keys are unreachable in `rankPokerHand`). -/
def POKER_HASH_rank (sig : Nat) : Nat :=
  if sig = 1 then HandRank.quads
  else if sig = 10 then HandRank.fullHouse
  else if sig = 9 then HandRank.trips
  else if sig = 7 then HandRank.twoPair
  else if sig = 6 then HandRank.pair
  else 0

/-- The label half of the `POKER_HASH` table. -/
def POKER_HASH_english (sig : Nat) : String :=
  if sig = 1 then "Four of a Kind"
  else if sig = 10 then "Full House"
  else if sig = 9 then "Three of a Kind"
  else if sig = 7 then "Two Pair"
  else if sig = 6 then "Pair"
  else ""

/-- The `HandAnalysis` interface. -/
structure HandAnalysis where
  handRank : Nat
  english : String
  btRanks : Nat
  btCount : Nat
deriving DecidableEq, Repr

/-- `rankPokerHand`: classify a hand from its rank and suit arrays. -/
def rankPokerHand (ranks suits : List Nat) : HandAnalysis :=
  let btRanks := countRanksBitwise ranks
  let btCount := countDuplicatesBitwise ranks % 15
  if btCount ≠ 5 then
    ⟨POKER_HASH_rank btCount, POKER_HASH_english btCount, btRanks, btCount⟩
  else
    let isStraight := isStraightCheck btRanks
    let isFlush := isFlushCheck suits
    if isFlush && btRanks == BROADWAY_HASH then
      ⟨HandRank.royalFlush, "Royal Flush", btRanks, btCount⟩
    else if isStraight && isFlush then
      ⟨HandRank.straightFlush, "Straight Flush", btRanks, btCount⟩
    else if isFlush then
      ⟨HandRank.flush, "Flush", btRanks, btCount⟩
    else if isStraight then
      ⟨HandRank.straight, "Straight", btRanks, btCount⟩
    else
      ⟨HandRank.highCard, "High Card", btRanks, btCount⟩

/-- Binary digit string of `n`, most significant first (`x.toString(2)` for
a nonzero integer); the fuel argument bounds the number of digits. -/
def binDigitsAux : Nat → Nat → List Char
  | 0, _ => []
  | fuel + 1, n =>
      if n = 0 then []
      else binDigitsAux fuel (n / 2) ++ [if n % 2 = 1 then '1' else '0']

/-- `x.toString(2)` (64 bits of fuel suffice for every accumulator value). -/
def binString (n : Nat) : List Char :=
  if n = 0 then ['0'] else binDigitsAux 64 n

/-- `padStart(64, "0")`. -/
def padStart64 (l : List Char) : List Char :=
  List.replicate (64 - l.length) '0' ++ l

/-- Group a character list into runs of four, as the source's
`replace(/(\d{4})/g, "$1 ")` does before the separating spaces go in. -/
def group4 : List Char → List (List Char)
  | a :: b :: c :: d :: rest => [a, b, c, d] :: group4 rest
  | [] => []
  | rest => [rest]

/-- `displayFloatAs64Bit`: the 64-digit binary rendering with a space after
every four digits and the trailing space trimmed. -/
def displayFloatAs64Bit (n : Nat) : List Char :=
  List.intercalate [' '] (group4 (padStart64 (binString n)))

/-- `charAt`: out-of-range access yields the empty string in JS, which is
never `"1"`; modelled by a `' '` default. -/
def charAt (s : List Char) (i : Nat) : Char := s.getD i ' '

/-- The `while` loop of `analyzeQuads`.  The fuel argument only bounds the
iteration count; the loop condition always fails first because `position`
grows by 5 each pass and is bounded by `l`. -/
def quadsGo (s : List Char) (l : Nat) : Nat → Int → Int → Nat → Int × Int
  | 0, quads, kicker, _ => (quads, kicker)
  | fuel + 1, quads, kicker, position =>
      if (quads = 0 ∨ kicker = 0) ∧ position < l then
        let position := position + 5
        if charAt s position = '1' then
          quadsGo s l fuel (14 - (position / 5 : Nat)) kicker position
        else if charAt s (position + 3) = '1' then
          quadsGo s l fuel quads (14 - (position / 5 : Nat)) position
        else quadsGo s l fuel quads kicker position
      else (quads, kicker)

/-- `analyzeQuads`. -/
def analyzeQuads (btCount : Nat) : List Int :=
  let stringRep := displayFloatAs64Bit btCount
  let l := stringRep.length
  let qk := quadsGo stringRep l (l + 1) 0 0 0
  [qk.1, qk.2]

/-- The `while` loop of `analyzeBoat`. -/
def boatGo (s : List Char) (l : Nat) : Nat → Int → Int → Nat → Int × Int
  | 0, trips, pair, _ => (trips, pair)
  | fuel + 1, trips, pair, position =>
      if (trips = 0 ∨ pair = 0) ∧ position < l then
        let position := position + 5
        if charAt s (position + 1) = '1' then
          boatGo s l fuel (14 - (position / 5 : Nat)) pair position
        else if charAt s (position + 2) = '1' then
          boatGo s l fuel trips (14 - (position / 5 : Nat)) position
        else boatGo s l fuel trips pair position
      else (trips, pair)

/-- `analyzeBoat`. -/
def analyzeBoat (btCount : Nat) : List Int :=
  let stringRep := displayFloatAs64Bit btCount
  let l := stringRep.length
  let tp := boatGo stringRep l (l + 1) 0 0 0
  [tp.1, tp.2]

/-- The `while` loop of `analyzeTrips`. -/
def tripsGo (s : List Char) (l : Nat) : Nat → Int → List Int → Nat → Int × List Int
  | 0, trips, kickers, _ => (trips, kickers)
  | fuel + 1, trips, kickers, position =>
      if (trips = 0 ∨ kickers.length < 2) ∧ position < l then
        let position := position + 5
        if charAt s (position + 1) = '1' then
          tripsGo s l fuel (14 - (position / 5 : Nat)) kickers position
        else if charAt s (position + 3) = '1' then
          tripsGo s l fuel trips (kickers ++ [(14 - (position / 5 : Nat) : Int)]) position
        else tripsGo s l fuel trips kickers position
      else (trips, kickers)

/-- `analyzeTrips`. -/
def analyzeTrips (btCount : Nat) : List Int :=
  let stringRep := displayFloatAs64Bit btCount
  let l := stringRep.length
  let tk := tripsGo stringRep l (l + 1) 0 [] 0
  tk.1 :: tk.2

/-- The `while` loop of `analyzeTwoPair`.  Note the source's loop condition
conjoins `pairs.length < 2` and `kicker === 0` with `&&` (its four sibling
analyzers use `||`). -/
def twoPairGo (s : List Char) (l : Nat) : Nat → List Int → Int → Nat → List Int × Int
  | 0, pairs, kicker, _ => (pairs, kicker)
  | fuel + 1, pairs, kicker, position =>
      if pairs.length < 2 ∧ kicker = 0 ∧ position < l then
        let position := position + 5
        if charAt s (position + 2) = '1' then
          twoPairGo s l fuel (pairs ++ [(14 - (position / 5 : Nat) : Int)]) kicker position
        else if charAt s (position + 3) = '1' then
          twoPairGo s l fuel pairs (14 - (position / 5 : Nat)) position
        else twoPairGo s l fuel pairs kicker position
      else (pairs, kicker)

/-- `analyzeTwoPair`. -/
def analyzeTwoPair (btCount : Nat) : List Int :=
  let stringRep := displayFloatAs64Bit btCount
  let l := stringRep.length
  let pk := twoPairGo stringRep l (l + 1) [] 0 0
  pk.1 ++ [pk.2]

/-- The `while` loop of `analyzePair`. -/
def pairGo (s : List Char) (l : Nat) : Nat → Int → List Int → Nat → Int × List Int
  | 0, pair, kickers, _ => (pair, kickers)
  | fuel + 1, pair, kickers, position =>
      if (pair = 0 ∨ kickers.length < 3) ∧ position < l then
        let position := position + 5
        if charAt s (position + 2) = '1' then
          pairGo s l fuel (14 - (position / 5 : Nat)) kickers position
        else if charAt s (position + 3) = '1' then
          pairGo s l fuel pair (kickers ++ [(14 - (position / 5 : Nat) : Int)]) position
        else pairGo s l fuel pair kickers position
      else (pair, kickers)

/-- `analyzePair`. -/
def analyzePair (btCount : Nat) : List Int :=
  let stringRep := displayFloatAs64Bit btCount
  let l := stringRep.length
  let pk := pairGo stringRep l (l + 1) 0 [] 0
  pk.1 :: pk.2

/-- `analysisToInt`: run the analyzer selected by the category, then fold the
extracted rank list with `count += analysis[factor] * 16 * (l - factor)`.
An unlisted category indexes `undefined` in the source and would throw;
`compareHands` only reaches this call for the five listed categories. -/
def analysisToInt (handRank : Nat) (bitCount : Nat) : Int :=
  let analysis : List Int :=
    if handRank = HandRank.quads then analyzeQuads bitCount
    else if handRank = HandRank.fullHouse then analyzeBoat bitCount
    else if handRank = HandRank.trips then analyzeTrips bitCount
    else if handRank = HandRank.twoPair then analyzeTwoPair bitCount
    else if handRank = HandRank.pair then analyzePair bitCount
    else []
  let l := analysis.length
  analysis.enum.foldl (fun count fv => count + fv.2 * 16 * ((l - fv.1 : Nat) : Int)) 0

/-- The classification `compareHands` performs on each argument:
`rankPokerHand(...parseHandFromString(hand))`. -/
def analyzeHand (hand : String) : HandAnalysis :=
  let p := parseHandFromString hand
  rankPokerHand p.1 p.2

/-- `compareHands`. -/
def compareHands (handA handB : String) : Int :=
  let a := analyzeHand handA
  let b := analyzeHand handB
  if a.handRank ≠ b.handRank then
    (a.handRank : Int) - (b.handRank : Int)
  else if a.handRank = HandRank.royalFlush then 0
  else if a.handRank = HandRank.flush ∨ a.handRank = HandRank.highCard then
    (a.btRanks : Int) - (b.btRanks : Int)
  else if a.handRank = HandRank.straightFlush ∨ a.handRank = HandRank.straight then
    if a.btRanks = WHEEL_HASH ∧ b.btRanks = WHEEL_HASH then 0
    else if a.btRanks = WHEEL_HASH then -1
    else if b.btRanks = WHEEL_HASH then 1
    else (a.btRanks : Int) - (b.btRanks : Int)
  else
    analysisToInt a.handRank a.btCount - analysisToInt b.handRank b.btCount

/-! ## Specification-side definitions used by the theorems -/

/-- Sum of the first `n` nibbles of an accumulator described by the digit
function `f`: `Σ_{r < n} f r * 16^r`. -/
def nibSum (f : Nat → Nat) (n : Nat) : Nat :=
  ((List.range n).map fun r => f r * 16 ^ r).sum

/-- Number of ranks that occur exactly once in the hand. -/
def singlesCount (hr : List Nat) : Nat :=
  ((List.range 15).filter fun r => hr.count r = 1).length

/-- Number of ranks that occur exactly twice in the hand. -/
def pairCount (hr : List Nat) : Nat :=
  ((List.range 15).filter fun r => hr.count r = 2).length

/-- Number of ranks that occur exactly three times in the hand. -/
def tripsCount (hr : List Nat) : Nat :=
  ((List.range 15).filter fun r => hr.count r = 3).length

/-- Number of ranks that occur exactly four times in the hand. -/
def quadsCount (hr : List Nat) : Nat :=
  ((List.range 15).filter fun r => hr.count r = 4).length

/-! ## Nibble arithmetic -/

/-- `nibSum` over zero digits is zero. -/
theorem nibSum_zero (n : Nat) : nibSum (fun _ => 0) n = 0 := by
  simp [nibSum]

/-- Peeling the top digit off a `nibSum`. -/
theorem nibSum_succ (f : Nat → Nat) (n : Nat) :
    nibSum f (n + 1) = nibSum f n + f n * 16 ^ n := by
  simp [nibSum, List.range_succ]

/-- `nibSum` only looks at digits below the bound. -/
theorem nibSum_congr (f g : Nat → Nat) (n : Nat) (h : ∀ r < n, f r = g r) :
    nibSum f n = nibSum g n := by
  unfold nibSum
  congr 1
  apply List.map_congr_left
  intro r hrn
  rw [h r (List.mem_range.mp hrn)]

/-- A number whose base-16 digits are all at most 15 is below `16^n`. -/
theorem nibSum_lt (f : Nat → Nat) (n : Nat) (hf : ∀ r, f r ≤ 15) :
    nibSum f n < 16 ^ n := by
  induction n with
  | zero => simp [nibSum]
  | succ n ih =>
    rw [nibSum_succ]
    have h1 : f n * 16 ^ n ≤ 15 * 16 ^ n := Nat.mul_le_mul_right _ (hf n)
    have h2 : (16 : Nat) ^ (n + 1) = 16 * 16 ^ n := by ring
    omega

/-- Splitting a `nibSum` at digit `k` into low part, digit and high part. -/
theorem nibSum_split (f : Nat → Nat) {k n : Nat} (hk : k < n) :
    ∃ M, nibSum f n = nibSum f k + 16 ^ k * (f k + 16 * M) := by
  induction n with
  | zero => omega
  | succ n ih =>
    rcases Nat.lt_succ_iff_lt_or_eq.mp hk with h | h
    · obtain ⟨M, hM⟩ := ih h
      refine ⟨M + f n * 16 ^ (n - k - 1), ?_⟩
      rw [nibSum_succ, hM]
      have hn : k + 1 + (n - k - 1) = n := by omega
      have hpow : (16 : Nat) ^ n = 16 ^ k * 16 * 16 ^ (n - k - 1) := by
        calc (16 : Nat) ^ n = 16 ^ (k + 1 + (n - k - 1)) := by rw [hn]
          _ = 16 ^ (k + 1) * 16 ^ (n - k - 1) := pow_add 16 (k + 1) (n - k - 1)
          _ = 16 ^ k * 16 * 16 ^ (n - k - 1) := by rw [pow_succ]
      rw [hpow]
      ring
    · subst h
      exact ⟨0, by rw [nibSum_succ]; ring⟩

/-- Digit extraction: dividing a `nibSum` by `16^k` and reducing mod 16
recovers the digit at position `k`. -/
theorem nibSum_div_mod (f : Nat → Nat) (hf : ∀ r, f r ≤ 15) {k n : Nat} (hk : k < n) :
    nibSum f n / 16 ^ k % 16 = f k := by
  obtain ⟨M, hM⟩ := nibSum_split f hk
  have hlow : nibSum f k < 16 ^ k := nibSum_lt f k hf
  have hpos : 0 < (16 : Nat) ^ k := Nat.pos_pow_of_pos k (by norm_num)
  rw [hM, Nat.add_mul_div_left _ _ hpos, Nat.div_eq_of_lt hlow]
  have h16 : f k < 16 := by have := hf k; omega
  omega

/-- Adding `d` to the digit at position `j` adds `d * 16^j` to the sum. -/
theorem nibSum_update (f : Nat → Nat) (d : Nat) {j n : Nat} (hj : j < n) :
    nibSum (fun r => if r = j then f r + d else f r) n = nibSum f n + d * 16 ^ j := by
  induction n with
  | zero => omega
  | succ n ih =>
    rcases Nat.lt_succ_iff_lt_or_eq.mp hj with h | h
    · rw [nibSum_succ, nibSum_succ, ih h]
      have hne : ¬ (n = j) := by omega
      simp only [hne, if_false]
      ring
    · subst h
      rw [nibSum_succ, nibSum_succ]
      have hcongr : nibSum (fun r => if r = j then f r + d else f r) j = nibSum f j :=
        nibSum_congr _ _ j (fun r hrj => by simp [Nat.ne_of_lt hrj])
      rw [hcongr]
      simp only [eq_self_iff_true, if_true]
      ring

/-- The loop invariant of `countDuplicatesBitwise`: starting from an
accumulator holding digit `2^(pre r) - 1` for every rank `r`, folding the
remaining cards yields digit `2^(pre r + count r) - 1`. -/
theorem cdb_foldl (t : List Nat) : ∀ pre : Nat → Nat,
    (∀ r ∈ t, r < 15) → (∀ r, pre r + t.count r ≤ 4) →
    t.foldl (fun value r => value + 16 ^ r * (value / 16 ^ r % 16 + 1))
      (nibSum (fun r => 2 ^ pre r - 1) 15)
    = nibSum (fun r => 2 ^ (pre r + t.count r) - 1) 15 := by
  induction t with
  | nil =>
    intro pre _ _
    simp
  | cons x t ih =>
    intro pre hmem hcnt
    have hx : x < 15 := hmem x (List.mem_cons_self x t)
    have hpre4 : ∀ r, pre r ≤ 4 := fun r => by have := hcnt r; omega
    have hdig : ∀ r, 2 ^ pre r - 1 ≤ 15 := by
      intro r
      have h2 : (2 : Nat) ^ pre r ≤ 2 ^ 4 := Nat.pow_le_pow_right (by norm_num) (hpre4 r)
      omega
    have hnib :
        nibSum (fun r => 2 ^ pre r - 1) 15 / 16 ^ x % 16 = 2 ^ pre x - 1 :=
      nibSum_div_mod _ hdig hx
    have hstep :
        nibSum (fun r => 2 ^ pre r - 1) 15 +
            16 ^ x * (nibSum (fun r => 2 ^ pre r - 1) 15 / 16 ^ x % 16 + 1)
          = nibSum (fun r => 2 ^ (pre r + (if r = x then 1 else 0)) - 1) 15 := by
      rw [hnib]
      have hone : (1 : Nat) ≤ 2 ^ pre x := Nat.one_le_two_pow
      have hupd := nibSum_update (fun r => 2 ^ pre r - 1) (2 ^ pre x) hx
      calc nibSum (fun r => 2 ^ pre r - 1) 15 + 16 ^ x * (2 ^ pre x - 1 + 1)
          = nibSum (fun r => 2 ^ pre r - 1) 15 + 2 ^ pre x * 16 ^ x := by
            rw [Nat.sub_add_cancel hone]; ring
        _ = nibSum (fun r => if r = x then 2 ^ pre r - 1 + 2 ^ pre x else 2 ^ pre r - 1) 15 := by
            rw [hupd]
        _ = nibSum (fun r => 2 ^ (pre r + (if r = x then 1 else 0)) - 1) 15 := by
            apply nibSum_congr
            intro r _
            by_cases hrx : r = x
            · subst hrx
              simp only [eq_self_iff_true, if_true, pow_succ]
              omega
            · simp [hrx]
    have ht : ∀ r, (x :: t).count r = t.count r + (if r = x then 1 else 0) := by
      intro r
      simp only [List.count_cons, beq_iff_eq]
      rcases eq_or_ne x r with h | h
      · subst h
        simp
      · simp [h, Ne.symm h]
    calc (x :: t).foldl (fun value r => value + 16 ^ r * (value / 16 ^ r % 16 + 1))
            (nibSum (fun r => 2 ^ pre r - 1) 15)
        = t.foldl (fun value r => value + 16 ^ r * (value / 16 ^ r % 16 + 1))
            (nibSum (fun r => 2 ^ (pre r + (if r = x then 1 else 0)) - 1) 15) := by
          rw [List.foldl_cons, hstep]
      _ = nibSum
            (fun r => 2 ^ ((pre r + (if r = x then 1 else 0)) + t.count r) - 1) 15 := by
          apply ih
          · exact fun r hrt => hmem r (List.mem_cons_of_mem x hrt)
          · intro r
            have := hcnt r
            rw [ht r] at this
            omega
      _ = nibSum (fun r => 2 ^ (pre r + (x :: t).count r) - 1) 15 := by
          apply nibSum_congr
          intro r _
          rw [ht r]
          ring_nf
/-- `countDuplicatesBitwise` computes the nibble accumulator with digit
`2^count - 1` at every rank position, provided no rank occurs more than
four times. -/
theorem countDuplicatesBitwise_eq (hr : List Nat) (hmem : ∀ r ∈ hr, r < 15)
    (hcnt : ∀ r, hr.count r ≤ 4) :
    countDuplicatesBitwise hr = nibSum (fun r => 2 ^ hr.count r - 1) 15 := by
  have h := cdb_foldl hr (fun _ => 0) hmem (by intro r; simpa using hcnt r)
  simp only [pow_zero] at h
  have h0 : nibSum (fun _ => (1 : Nat) - 1) 15 = 0 := by simp [nibSum]
  rw [h0] at h
  simpa [countDuplicatesBitwise] using h

/-! ## Theorems for the claims -/

/-- C1 counterexample: `compareHands("Jh Jc Jd Js 2h", "8h 8c 8d 9s 9h")`
classifies hand A as quads and hand B as a full house — so A is the
stronger hand — yet returns `1`, a positive number, refuting the claim
that a negative number signals "A stronger". -/
theorem c1_counterexample :
    (analyzeHand "Jh Jc Jd Js 2h").handRank = HandRank.quads ∧
    (analyzeHand "8h 8c 8d 9s 9h").handRank = HandRank.fullHouse ∧
    compareHands "Jh Jc Jd Js 2h" "8h 8c 8d 9s 9h" = 1 := by
  refine ⟨by decide, by decide, by decide⟩

/-- C1 (amended): `compareHands` returns a positive number when hand A's
category is the stronger one, a negative number when hand B's category is
the stronger one, and zero when the two hand strings are identical — the
sign convention is the reverse of the one the claim states. -/
theorem c1_main (A B : String) :
    ((analyzeHand A).handRank > (analyzeHand B).handRank → compareHands A B > 0) ∧
    ((analyzeHand A).handRank < (analyzeHand B).handRank → compareHands A B < 0) ∧
    (A = B → compareHands A B = 0) := by
  refine ⟨?_, ?_, ?_⟩
  · intro h
    have hne : (analyzeHand A).handRank ≠ (analyzeHand B).handRank := Nat.ne_of_gt h
    simp only [compareHands, if_pos hne]
    omega
  · intro h
    have hne : (analyzeHand A).handRank ≠ (analyzeHand B).handRank := Nat.ne_of_lt h
    simp only [compareHands, if_pos hne]
    omega
  · intro h
    subst h
    simp only [compareHands]
    split_ifs <;> omega

/-- C1 witness: at the quads-versus-full-house pair the hypothesis of the
first conjunct holds and the comparison is positive. -/
theorem c1_witness :
    (analyzeHand "Jh Jc Jd Js 2h").handRank > (analyzeHand "8h 8c 8d 9s 9h").handRank ∧
    compareHands "Jh Jc Jd Js 2h" "8h 8c 8d 9s 9h" > 0 :=
  ⟨by decide, (c1_main "Jh Jc Jd Js 2h" "8h 8c 8d 9s 9h").1 (by decide)⟩

/-- C2: the fold in `analysisToInt` uses the linear weights `16 * (l - i)`,
so a higher-order mismatch does not dominate lower-order positions: the
pair hand 4,4,7,6,5 extracts the lexicographically greater analysis
`[3, 6, 5, 4]`, the pair hand 3,3,A,K,Q the smaller `[2, 13, 12, 11]`,
yet the folded score of the former is 704 < 1312, the score of the
latter — the fold's sign disagrees with lexicographic comparison. -/
theorem c2_main :
    analyzePair (countDuplicatesBitwise [4, 4, 7, 6, 5]) = [3, 6, 5, 4] ∧
    analyzePair (countDuplicatesBitwise [3, 3, 14, 13, 12]) = [2, 13, 12, 11] ∧
    analysisToInt HandRank.pair (countDuplicatesBitwise [4, 4, 7, 6, 5]) = 704 ∧
    analysisToInt HandRank.pair (countDuplicatesBitwise [3, 3, 14, 13, 12]) = 1312 ∧
    analysisToInt HandRank.pair (countDuplicatesBitwise [4, 4, 7, 6, 5]) <
      analysisToInt HandRank.pair (countDuplicatesBitwise [3, 3, 14, 13, 12]) := by
  refine ⟨by decide, by decide, by decide, by decide, by decide⟩

/-- C3: on the two-pair hand K,K,Q,Q with an ace kicker above both pairs,
`analyzeTwoPair` stops as soon as the kicker is seen (its loop condition
joins `pairs.length < 2` and `kicker === 0` with `&&`) and returns the
one-element list `[13]` instead of the claimed `[13, 12, 14]`. -/
theorem c3_main :
    analyzeTwoPair (countDuplicatesBitwise [13, 13, 12, 12, 14]) = [13] ∧
    analyzeTwoPair (countDuplicatesBitwise [13, 13, 12, 12, 14]) ≠ [13, 12, 14] := by
  refine ⟨by decide, by decide⟩

/-- C4: on the quads hand J,J,J,J,2 the quads analyzer returns `[10, 1]`,
one below the true card ranks `[11, 2]` — `14 - position/5` is off by one
(the nibble at scan position `5*g` is the count of rank `15 - g`). -/
theorem c4_main :
    analyzeQuads (countDuplicatesBitwise [11, 11, 11, 11, 2]) = [10, 1] ∧
    analyzeQuads (countDuplicatesBitwise [11, 11, 11, 11, 2]) ≠ [11, 2] := by
  refine ⟨by decide, by decide⟩

/-- C5 counterexample: in the accumulator of the hand 2,2,3,4,5 the nibble
at rank 2 holds 3, not the count 2. -/
theorem c5_counterexample :
    countDuplicatesBitwise [2, 2, 3, 4, 5] / 16 ^ 2 % 16 = 3 ∧
    countDuplicatesBitwise [2, 2, 3, 4, 5] / 16 ^ 2 % 16 ≠ 2 := by
  refine ⟨by decide, by decide⟩

/-- C7: when both hands rank as straights or both as straight flushes,
`compareHands` returns 0 on two wheels, a negative number when only hand A
is the wheel, and a positive number when only hand B is — the wheel ties a
wheel and loses to every non-wheel hand of its category (positive means "A
stronger" in the source's convention); concretely the wheel loses to the
straight `4s 5c 7d 6s 3s`. -/
theorem c7_main (A B : String)
    (hcat : (analyzeHand A).handRank = (analyzeHand B).handRank)
    (hsc : (analyzeHand A).handRank = HandRank.straight ∨
      (analyzeHand A).handRank = HandRank.straightFlush) :
    ((analyzeHand A).btRanks = WHEEL_HASH ∧ (analyzeHand B).btRanks = WHEEL_HASH →
      compareHands A B = 0) ∧
    ((analyzeHand A).btRanks = WHEEL_HASH ∧ (analyzeHand B).btRanks ≠ WHEEL_HASH →
      compareHands A B = -1) ∧
    ((analyzeHand A).btRanks ≠ WHEEL_HASH ∧ (analyzeHand B).btRanks = WHEEL_HASH →
      compareHands A B = 1) ∧
    compareHands "2s As 4s 3s 5d" "4s 5c 7d 6s 3s" = -1 := by
  have hne : ¬ (analyzeHand A).handRank ≠ (analyzeHand B).handRank := by simp [hcat]
  refine ⟨?_, ?_, ?_, by decide⟩ <;> intro hw
  · simp only [compareHands, if_neg hne]
    rcases hsc with h | h <;>
      simp [h, HandRank.straight, HandRank.straightFlush, HandRank.royalFlush,
        HandRank.flush, HandRank.highCard, hw.1, hw.2]
  · simp only [compareHands, if_neg hne]
    rcases hsc with h | h <;>
      simp [h, HandRank.straight, HandRank.straightFlush, HandRank.royalFlush,
        HandRank.flush, HandRank.highCard, hw.1, hw.2]
  · simp only [compareHands, if_neg hne]
    rcases hsc with h | h <;>
      simp [h, HandRank.straight, HandRank.straightFlush, HandRank.royalFlush,
        HandRank.flush, HandRank.highCard, hw.1, hw.2]

/-- C7 witness: the wheel against the seven-high straight instantiates the
"only hand A is the wheel" case. -/
theorem c7_witness :
    ((analyzeHand "2s As 4s 3s 5d").handRank = (analyzeHand "4s 5c 7d 6s 3s").handRank) ∧
    (analyzeHand "2s As 4s 3s 5d").handRank = HandRank.straight ∧
    compareHands "2s As 4s 3s 5d" "4s 5c 7d 6s 3s" = -1 :=
  ⟨by decide, by decide,
    (c7_main "2s As 4s 3s 5d" "4s 5c 7d 6s 3s" (by decide) (Or.inl (by decide))).2.1
      ⟨by decide, by decide⟩⟩

/-- Membership bound in the form the digit lemmas use. -/
theorem mem_lt_15 {hr : List Nat} (hmem : ∀ r ∈ hr, 2 ≤ r ∧ r ≤ 14) :
    ∀ r ∈ hr, r < 15 := fun r h => by
  have := (hmem r h).2
  omega

/-- The bounded multiplicity hypothesis extends to absent ranks. -/
theorem count_le_four {hr : List Nat} (hcnt : ∀ r ∈ hr, hr.count r ≤ 4) :
    ∀ r, hr.count r ≤ 4 := by
  intro r
  by_cases h : r ∈ hr
  · exact hcnt r h
  · simp [List.count_eq_zero_of_not_mem h]

/-- The digits `2^count - 1` are genuine nibbles when counts stay at 4. -/
theorem digits_le_15 {hr : List Nat} (hcnt : ∀ r, hr.count r ≤ 4) :
    ∀ r, 2 ^ hr.count r - 1 ≤ 15 := by
  intro r
  have h2 : (2 : Nat) ^ hr.count r ≤ 2 ^ 4 :=
    Nat.pow_le_pow_right (by norm_num) (hcnt r)
  omega

/-- C5 (amended): for a five-card rank array with ranks in [2,14] and no
rank occurring more than four times, the nibble of the accumulator at any
position `r` holds `2^count(r) - 1`: 0 when absent and 1, 3, 7, 15 when
the rank appears once, twice, three or four times. -/
theorem c5_main (hr : List Nat) (_h5 : hr.length = 5)
    (hmem : ∀ r ∈ hr, 2 ≤ r ∧ r ≤ 14) (hcnt : ∀ r ∈ hr, hr.count r ≤ 4) :
    ∀ r, countDuplicatesBitwise hr / 16 ^ r % 16 = 2 ^ hr.count r - 1 := by
  have hm15 := mem_lt_15 hmem
  have hcnt' := count_le_four hcnt
  have hdig := digits_le_15 hcnt'
  have heq := countDuplicatesBitwise_eq hr hm15 hcnt'
  intro r
  by_cases hr15 : r < 15
  · rw [heq]
    exact nibSum_div_mod _ hdig hr15
  · have hlt : countDuplicatesBitwise hr < 16 ^ 15 := by
      rw [heq]
      exact nibSum_lt _ 15 hdig
    have hle : (16 : Nat) ^ 15 ≤ 16 ^ r :=
      Nat.pow_le_pow_right (by norm_num) (by omega)
    have hc0 : hr.count r = 0 := by
      apply List.count_eq_zero_of_not_mem
      intro hin
      exact hr15 (hm15 r hin)
    rw [Nat.div_eq_of_lt (lt_of_lt_of_le hlt hle), hc0]
    simp

/-- C5 witness: the hand 2,2,3,4,5 satisfies the hypotheses, and the nibble
at rank 2 evaluates to `2^2 - 1 = 3`. -/
theorem c5_witness :
    ([2, 2, 3, 4, 5] : List Nat).length = 5 ∧
    (∀ r ∈ ([2, 2, 3, 4, 5] : List Nat), 2 ≤ r ∧ r ≤ 14) ∧
    (∀ r ∈ ([2, 2, 3, 4, 5] : List Nat), ([2, 2, 3, 4, 5] : List Nat).count r ≤ 4) ∧
    countDuplicatesBitwise [2, 2, 3, 4, 5] / 16 ^ 2 % 16
      = 2 ^ ([2, 2, 3, 4, 5] : List Nat).count 2 - 1 :=
  ⟨by decide, by decide, by decide,
    c5_main [2, 2, 3, 4, 5] (by decide) (by decide) (by decide) 2⟩

/-- C10: for a five-card rank array with ranks in [2,14] and no rank more
than four times, the accumulator equals `Σ_r (2^count(r) - 1) * 16^r`, the
total stays below `2^60`, and (each rank being at least 2) it is a multiple
of `2^8` — so its at most 52 significant bits fit a double-precision
mantissa exactly. -/
theorem c10_main (hr : List Nat) (_h5 : hr.length = 5)
    (hmem : ∀ r ∈ hr, 2 ≤ r ∧ r ≤ 14) (hcnt : ∀ r ∈ hr, hr.count r ≤ 4) :
    countDuplicatesBitwise hr
        = ((List.range 15).map fun r => (2 ^ hr.count r - 1) * 16 ^ r).sum ∧
    countDuplicatesBitwise hr < 2 ^ 60 ∧
    256 ∣ countDuplicatesBitwise hr := by
  have hm15 := mem_lt_15 hmem
  have hcnt' := count_le_four hcnt
  have hdig := digits_le_15 hcnt'
  have heq := countDuplicatesBitwise_eq hr hm15 hcnt'
  refine ⟨heq, ?_, ?_⟩
  · have hlt : countDuplicatesBitwise hr < 16 ^ 15 := by
      rw [heq]
      exact nibSum_lt _ 15 hdig
    have h60 : (16 : Nat) ^ 15 = 2 ^ 60 := by norm_num
    omega
  · rw [heq]
    unfold nibSum
    apply List.dvd_sum
    intro x hxmem
    obtain ⟨r, hrmem, hrx⟩ := List.mem_map.mp hxmem
    subst hrx
    by_cases h2r : 2 ≤ r
    · have h16 : (16 : Nat) ^ r = 256 * 16 ^ (r - 2) := by
        have hsplit : r = 2 + (r - 2) := by omega
        calc (16 : Nat) ^ r = 16 ^ (2 + (r - 2)) := by rw [← hsplit]
          _ = 16 ^ 2 * 16 ^ (r - 2) := pow_add 16 2 (r - 2)
          _ = 256 * 16 ^ (r - 2) := by norm_num
      exact ⟨(2 ^ hr.count r - 1) * 16 ^ (r - 2), by rw [h16]; ring⟩
    · have hc0 : hr.count r = 0 := by
        apply List.count_eq_zero_of_not_mem
        intro hin
        have := (hmem r hin).1
        omega
      simp [hc0]

/-- C10 witness: the formula, the bound and the divisibility at 2,2,3,4,5. -/
theorem c10_witness :
    ([2, 2, 3, 4, 5] : List Nat).length = 5 ∧
    (∀ r ∈ ([2, 2, 3, 4, 5] : List Nat), 2 ≤ r ∧ r ≤ 14) ∧
    (∀ r ∈ ([2, 2, 3, 4, 5] : List Nat), ([2, 2, 3, 4, 5] : List Nat).count r ≤ 4) ∧
    (countDuplicatesBitwise [2, 2, 3, 4, 5]
        = ((List.range 15).map fun r =>
            (2 ^ ([2, 2, 3, 4, 5] : List Nat).count r - 1) * 16 ^ r).sum ∧
      countDuplicatesBitwise [2, 2, 3, 4, 5] < 2 ^ 60 ∧
      256 ∣ countDuplicatesBitwise [2, 2, 3, 4, 5]) :=
  ⟨by decide, by decide, by decide,
    c10_main [2, 2, 3, 4, 5] (by decide) (by decide) (by decide)⟩

/-- Counting a cons: one more occurrence when the head matches. -/
theorem count_cons_ind (x : Nat) (t : List Nat) (r : Nat) :
    (x :: t).count r = t.count r + (if r = x then 1 else 0) := by
  simp only [List.count_cons, beq_iff_eq]
  rcases eq_or_ne x r with h | h
  · subst h
    simp
  · simp [h, Ne.symm h]

/-- Splitting a pointwise sum of two digit maps. -/
theorem sum_map_add (L : List Nat) (f g : Nat → Nat) :
    (L.map fun r => f r + g r).sum = (L.map f).sum + (L.map g).sum := by
  induction L with
  | nil => simp
  | cons a L ih => simp [ih]; omega

/-- The indicator of a fixed value sums to one over a long enough range. -/
theorem sum_indicator (x : Nat) : ∀ n : Nat,
    ((List.range n).map fun r => if r = x then 1 else 0).sum
      = if x < n then 1 else 0 := by
  intro n
  induction n with
  | zero => simp
  | succ n ih =>
    rw [List.range_succ]
    simp only [List.map_append, List.sum_append, ih, List.map_cons, List.map_nil,
      List.sum_cons, List.sum_nil]
    by_cases h : n = x
    · simp [h, Nat.lt_irrefl, Nat.lt_succ_self]
    · have h3 : (x < n + 1) ↔ (x < n) := by
        constructor
        · intro hlt
          rcases Nat.lt_succ_iff_lt_or_eq.mp hlt with h4 | h4
          · exact h4
          · exact absurd h4.symm h
        · intro hlt
          omega
      simp [h, h3]

/-- The counts over all rank positions sum to the hand size. -/
theorem count_sum (hr : List Nat) (hmem : ∀ r ∈ hr, r < 15) :
    ((List.range 15).map fun r => hr.count r).sum = hr.length := by
  induction hr with
  | nil => simp
  | cons x t ih =>
    have hx : x < 15 := hmem x (List.mem_cons_self x t)
    have hmt : ∀ r ∈ t, r < 15 := fun r h => hmem r (List.mem_cons_of_mem x h)
    have hcongr :
        ((List.range 15).map fun r => (x :: t).count r)
          = (List.range 15).map fun r => t.count r + (if r = x then 1 else 0) := by
      apply List.map_congr_left
      intro r _
      exact count_cons_ind x t r
    rw [hcongr, sum_map_add, ih hmt, sum_indicator x 15, if_pos hx]
    simp

/-- Fiber decomposition: a sum of `f` applied to multiplicities bounded by
four splits by multiplicity value. -/
theorem sum_fiber (f c : Nat → Nat) : ∀ L : List Nat, (∀ r ∈ L, c r ≤ 4) →
    (L.map fun r => f (c r)).sum =
      f 0 * (L.filter fun r => c r = 0).length +
      f 1 * (L.filter fun r => c r = 1).length +
      f 2 * (L.filter fun r => c r = 2).length +
      f 3 * (L.filter fun r => c r = 3).length +
      f 4 * (L.filter fun r => c r = 4).length := by
  intro L
  induction L with
  | nil => simp
  | cons a L ih =>
    intro hc
    have ha := hc a (List.mem_cons_self a L)
    have hL : ∀ r ∈ L, c r ≤ 4 := fun r h => hc r (List.mem_cons_of_mem a h)
    obtain ⟨k, hk, hck⟩ : ∃ k, k ≤ 4 ∧ c a = k := ⟨c a, ha, rfl⟩
    interval_cases k <;>
      simp [List.filter_cons, hck, ih hL] <;> ring

/-- The mod-15 reduction of a `nibSum` forgets the base-16 weights
(`16 ≡ 1 (mod 15)`). -/
theorem nibSum_mod15 (f : Nat → Nat) : ∀ n : Nat,
    nibSum f n % 15 = ((List.range n).map f).sum % 15 := by
  intro n
  induction n with
  | zero => rfl
  | succ n ih =>
    rw [nibSum_succ, List.range_succ]
    simp only [List.map_append, List.sum_append, List.map_cons, List.map_nil,
      List.sum_cons, List.sum_nil, Nat.add_zero]
    have h1 : 16 ^ n % 15 = 1 := by
      rw [Nat.pow_mod]
      norm_num
    rw [Nat.add_mod, Nat.mul_mod, h1, ih]
    omega

/-- The linear shape equations of a five-card hand: counting cards by
multiplicity, and the value of the nibble digit sum, in terms of the four
fiber sizes. -/
theorem shape_sums (hr : List Nat) (h5 : hr.length = 5)
    (hm15 : ∀ r ∈ hr, r < 15) (hcnt' : ∀ r, hr.count r ≤ 4) :
    singlesCount hr + 2 * pairCount hr + 3 * tripsCount hr + 4 * quadsCount hr = 5 ∧
    ((List.range 15).map fun r => 2 ^ hr.count r - 1).sum
      = singlesCount hr + 3 * pairCount hr + 7 * tripsCount hr + 15 * quadsCount hr := by
  have hrange : ∀ r ∈ List.range 15, hr.count r ≤ 4 := fun r _ => hcnt' r
  have hT := sum_fiber (fun k => k) (fun r => hr.count r) (List.range 15) hrange
  have hS := sum_fiber (fun k => 2 ^ k - 1) (fun r => hr.count r) (List.range 15) hrange
  norm_num at hT hS
  have hL := count_sum hr hm15
  rw [h5] at hL
  unfold singlesCount pairCount tripsCount quadsCount
  constructor
  · omega
  · omega

/-- Absence of pairs, trips and quads fibers is exactly the no-duplicate
condition. -/
theorem fibers_zero_iff (hr : List Nat) (hm15 : ∀ r ∈ hr, r < 15)
    (hcnt' : ∀ r, hr.count r ≤ 4) :
    (pairCount hr = 0 ∧ tripsCount hr = 0 ∧ quadsCount hr = 0)
      ↔ ∀ r ∈ hr, hr.count r ≤ 1 := by
  constructor
  · rintro ⟨hp, ht, hq⟩ r hrmem
    by_contra hgt
    have h2 : 2 ≤ hr.count r := by omega
    have h4 := hcnt' r
    have hr15 : r ∈ List.range 15 := List.mem_range.mpr (hm15 r hrmem)
    have hk : hr.count r = 2 ∨ hr.count r = 3 ∨ hr.count r = 4 := by omega
    rcases hk with h | h | h
    · have hn := List.length_eq_zero.mp hp
      have : r ∈ (List.range 15).filter fun r => hr.count r = 2 :=
        List.mem_filter.mpr ⟨hr15, by simp [h]⟩
      rw [hn] at this
      simp at this
    · have hn := List.length_eq_zero.mp ht
      have : r ∈ (List.range 15).filter fun r => hr.count r = 3 :=
        List.mem_filter.mpr ⟨hr15, by simp [h]⟩
      rw [hn] at this
      simp at this
    · have hn := List.length_eq_zero.mp hq
      have : r ∈ (List.range 15).filter fun r => hr.count r = 4 :=
        List.mem_filter.mpr ⟨hr15, by simp [h]⟩
      rw [hn] at this
      simp at this
  · intro h
    have hz : ∀ k, 2 ≤ k →
        ((List.range 15).filter fun r => hr.count r = k) = [] := by
      intro k hk
      rw [List.filter_eq_nil_iff]
      intro r _
      by_cases hrmem : r ∈ hr
      · have := h r hrmem
        simp only [decide_eq_true_eq]
        omega
      · have := List.count_eq_zero_of_not_mem hrmem
        simp only [decide_eq_true_eq]
        omega
    refine ⟨?_, ?_, ?_⟩
    · unfold pairCount
      rw [hz 2 (by norm_num)]
      rfl
    · unfold tripsCount
      rw [hz 3 (by norm_num)]
      rfl
    · unfold quadsCount
      rw [hz 4 (by norm_num)]
      rfl

/-- In the duplicate branch the classifier hands back the `POKER_HASH`
category of the signature. -/
theorem rankPokerHand_dup (hr ss : List Nat) (sig : Nat)
    (hsig : countDuplicatesBitwise hr % 15 = sig) (hne : sig ≠ 5) :
    (rankPokerHand hr ss).handRank = POKER_HASH_rank sig := by
  unfold rankPokerHand
  simp [hsig, hne]

set_option maxHeartbeats 1600000 in
/-- C6: for every valid five-card hand the duplicate signature
`countDuplicatesBitwise mod 15` lies in {1,5,6,7,9,10}; it is 5 exactly on
duplicate-free hands, 6 exactly on one-pair hands, 7 exactly on two-pair
hands, 9 exactly on trips-without-pair hands, 10 exactly on full houses and
1 exactly on quads; and on each duplicate shape `rankPokerHand`'s table
lookup returns the matching category. -/
theorem c6_main (hr ss : List Nat) (h5 : hr.length = 5)
    (hmem : ∀ r ∈ hr, 2 ≤ r ∧ r ≤ 14) (hcnt : ∀ r ∈ hr, hr.count r ≤ 4) :
    (countDuplicatesBitwise hr % 15 = 1 ∨ countDuplicatesBitwise hr % 15 = 5 ∨
     countDuplicatesBitwise hr % 15 = 6 ∨ countDuplicatesBitwise hr % 15 = 7 ∨
     countDuplicatesBitwise hr % 15 = 9 ∨ countDuplicatesBitwise hr % 15 = 10) ∧
    (countDuplicatesBitwise hr % 15 = 5 ↔ ∀ r ∈ hr, hr.count r ≤ 1) ∧
    (countDuplicatesBitwise hr % 15 = 6 ↔
      pairCount hr = 1 ∧ tripsCount hr = 0 ∧ quadsCount hr = 0) ∧
    (countDuplicatesBitwise hr % 15 = 7 ↔ pairCount hr = 2) ∧
    (countDuplicatesBitwise hr % 15 = 9 ↔ tripsCount hr = 1 ∧ pairCount hr = 0) ∧
    (countDuplicatesBitwise hr % 15 = 10 ↔ tripsCount hr = 1 ∧ pairCount hr = 1) ∧
    (countDuplicatesBitwise hr % 15 = 1 ↔ quadsCount hr = 1) ∧
    (pairCount hr = 1 ∧ tripsCount hr = 0 ∧ quadsCount hr = 0 →
      (rankPokerHand hr ss).handRank = HandRank.pair) ∧
    (pairCount hr = 2 → (rankPokerHand hr ss).handRank = HandRank.twoPair) ∧
    (tripsCount hr = 1 ∧ pairCount hr = 0 →
      (rankPokerHand hr ss).handRank = HandRank.trips) ∧
    (tripsCount hr = 1 ∧ pairCount hr = 1 →
      (rankPokerHand hr ss).handRank = HandRank.fullHouse) ∧
    (quadsCount hr = 1 → (rankPokerHand hr ss).handRank = HandRank.quads) := by
  have hm15 := mem_lt_15 hmem
  have hcnt' := count_le_four hcnt
  obtain ⟨hsum, hSv⟩ := shape_sums hr h5 hm15 hcnt'
  have hsig : countDuplicatesBitwise hr % 15
      = (singlesCount hr + 3 * pairCount hr + 7 * tripsCount hr
          + 15 * quadsCount hr) % 15 := by
    rw [countDuplicatesBitwise_eq hr hm15 hcnt', nibSum_mod15, hSv]
  have hnz := fibers_zero_iff hr hm15 hcnt'
  have hshape :
      (pairCount hr = 0 ∧ tripsCount hr = 0 ∧ quadsCount hr = 0) ∨
      (pairCount hr = 1 ∧ tripsCount hr = 0 ∧ quadsCount hr = 0) ∨
      (pairCount hr = 2 ∧ tripsCount hr = 0 ∧ quadsCount hr = 0) ∨
      (pairCount hr = 0 ∧ tripsCount hr = 1 ∧ quadsCount hr = 0) ∨
      (pairCount hr = 1 ∧ tripsCount hr = 1 ∧ quadsCount hr = 0) ∨
      (pairCount hr = 0 ∧ tripsCount hr = 0 ∧ quadsCount hr = 1) := by omega
  have hbig :
      (countDuplicatesBitwise hr % 15 = 5 ∧
        pairCount hr = 0 ∧ tripsCount hr = 0 ∧ quadsCount hr = 0) ∨
      (countDuplicatesBitwise hr % 15 = 6 ∧
        pairCount hr = 1 ∧ tripsCount hr = 0 ∧ quadsCount hr = 0) ∨
      (countDuplicatesBitwise hr % 15 = 7 ∧
        pairCount hr = 2 ∧ tripsCount hr = 0 ∧ quadsCount hr = 0) ∨
      (countDuplicatesBitwise hr % 15 = 9 ∧
        pairCount hr = 0 ∧ tripsCount hr = 1 ∧ quadsCount hr = 0) ∨
      (countDuplicatesBitwise hr % 15 = 10 ∧
        pairCount hr = 1 ∧ tripsCount hr = 1 ∧ quadsCount hr = 0) ∨
      (countDuplicatesBitwise hr % 15 = 1 ∧
        pairCount hr = 0 ∧ tripsCount hr = 0 ∧ quadsCount hr = 1) := by
    rcases hshape with ⟨hp, ht, hq⟩ | ⟨hp, ht, hq⟩ | ⟨hp, ht, hq⟩ |
      ⟨hp, ht, hq⟩ | ⟨hp, ht, hq⟩ | ⟨hp, ht, hq⟩
    · have hs1 : singlesCount hr = 5 := by omega
      rw [hp, ht, hq, hs1] at hsig
      norm_num at hsig
      exact Or.inl ⟨hsig, hp, ht, hq⟩
    · have hs1 : singlesCount hr = 3 := by omega
      rw [hp, ht, hq, hs1] at hsig
      norm_num at hsig
      exact Or.inr (Or.inl ⟨hsig, hp, ht, hq⟩)
    · have hs1 : singlesCount hr = 1 := by omega
      rw [hp, ht, hq, hs1] at hsig
      norm_num at hsig
      exact Or.inr (Or.inr (Or.inl ⟨hsig, hp, ht, hq⟩))
    · have hs1 : singlesCount hr = 2 := by omega
      rw [hp, ht, hq, hs1] at hsig
      norm_num at hsig
      exact Or.inr (Or.inr (Or.inr (Or.inl ⟨hsig, hp, ht, hq⟩)))
    · have hs1 : singlesCount hr = 0 := by omega
      rw [hp, ht, hq, hs1] at hsig
      norm_num at hsig
      exact Or.inr (Or.inr (Or.inr (Or.inr (Or.inl ⟨hsig, hp, ht, hq⟩))))
    · have hs1 : singlesCount hr = 1 := by omega
      rw [hp, ht, hq, hs1] at hsig
      norm_num at hsig
      exact Or.inr (Or.inr (Or.inr (Or.inr (Or.inr ⟨hsig, hp, ht, hq⟩))))
  have hiff5 : countDuplicatesBitwise hr % 15 = 5 ↔
      (pairCount hr = 0 ∧ tripsCount hr = 0 ∧ quadsCount hr = 0) := by omega
  refine ⟨by omega, hiff5.trans hnz, by omega, by omega, by omega, by omega,
    by omega, ?_, ?_, ?_, ?_, ?_⟩
  · rintro ⟨hp, ht, hq⟩
    have h6 : countDuplicatesBitwise hr % 15 = 6 := by omega
    rw [rankPokerHand_dup hr ss 6 h6 (by norm_num)]
    rfl
  · intro hp
    have h7 : countDuplicatesBitwise hr % 15 = 7 := by omega
    rw [rankPokerHand_dup hr ss 7 h7 (by norm_num)]
    rfl
  · rintro ⟨ht, hp⟩
    have h9 : countDuplicatesBitwise hr % 15 = 9 := by omega
    rw [rankPokerHand_dup hr ss 9 h9 (by norm_num)]
    rfl
  · rintro ⟨ht, hp⟩
    have h10 : countDuplicatesBitwise hr % 15 = 10 := by omega
    rw [rankPokerHand_dup hr ss 10 h10 (by norm_num)]
    rfl
  · intro hq
    have h1 : countDuplicatesBitwise hr % 15 = 1 := by omega
    rw [rankPokerHand_dup hr ss 1 h1 (by norm_num)]
    rfl

/-- C6 witness: the two-pair hand 8,8,J,9,9 instantiates the signature-7
equivalence and the table lookup. -/
theorem c6_witness :
    ([8, 8, 11, 9, 9] : List Nat).length = 5 ∧
    (∀ r ∈ ([8, 8, 11, 9, 9] : List Nat), 2 ≤ r ∧ r ≤ 14) ∧
    (∀ r ∈ ([8, 8, 11, 9, 9] : List Nat), ([8, 8, 11, 9, 9] : List Nat).count r ≤ 4) ∧
    pairCount [8, 8, 11, 9, 9] = 2 ∧
    countDuplicatesBitwise [8, 8, 11, 9, 9] % 15 = 7 ∧
    (rankPokerHand [8, 8, 11, 9, 9] [1, 8, 2, 1, 8]).handRank = HandRank.twoPair :=
  ⟨by decide, by decide, by decide, by decide,
    ((c6_main [8, 8, 11, 9, 9] [1, 8, 2, 1, 8]
        (by decide) (by decide) (by decide)).2.2.2.1).mpr (by decide),
    ((c6_main [8, 8, 11, 9, 9] [1, 8, 2, 1, 8]
        (by decide) (by decide) (by decide)).2.2.2.2.2.2.2.2.1) (by decide)⟩

/-- A duplicate-free five-card hand has duplicate signature 5. -/
theorem sig_five_of_noDup (hr : List Nat) (h5 : hr.length = 5)
    (hm15 : ∀ r ∈ hr, r < 15) (hcnt' : ∀ r, hr.count r ≤ 4)
    (hnd : ∀ r ∈ hr, hr.count r ≤ 1) :
    countDuplicatesBitwise hr % 15 = 5 := by
  obtain ⟨hsum, hSv⟩ := shape_sums hr h5 hm15 hcnt'
  have hsig : countDuplicatesBitwise hr % 15
      = (singlesCount hr + 3 * pairCount hr + 7 * tripsCount hr
          + 15 * quadsCount hr) % 15 := by
    rw [countDuplicatesBitwise_eq hr hm15 hcnt', nibSum_mod15, hSv]
  obtain ⟨hp, ht, hq⟩ := (fibers_zero_iff hr hm15 hcnt').mpr hnd
  have hs1 : singlesCount hr = 5 := by omega
  rw [hp, ht, hq, hs1] at hsig
  norm_num at hsig
  exact hsig

/-- For five one-hot suit codes the source's flush test succeeds exactly
when all five suits are equal. -/
theorem isFlushCheck_iff (ss : List Nat) (hs5 : ss.length = 5)
    (hsuit : ∀ x ∈ ss, x = 1 ∨ x = 2 ∨ x = 4 ∨ x = 8) :
    isFlushCheck ss = true ↔ ∃ v, ∀ x ∈ ss, x = v := by
  match ss, hs5 with
  | [a, b, c, d, e], _ =>
    have key : ∀ a ∈ [1, 2, 4, 8], ∀ b ∈ [1, 2, 4, 8], ∀ c ∈ [1, 2, 4, 8],
        ∀ d ∈ [1, 2, 4, 8], ∀ e ∈ [1, 2, 4, 8],
        ((a : Nat) == (b ||| c ||| d ||| e)) = true ↔
          (b = a ∧ c = a ∧ d = a ∧ e = a) := by decide
    have ha : a ∈ [1, 2, 4, 8] := by
      have := hsuit a (by simp)
      simp only [List.mem_cons, List.mem_singleton]
      tauto
    have hb : b ∈ [1, 2, 4, 8] := by
      have := hsuit b (by simp)
      simp only [List.mem_cons, List.mem_singleton]
      tauto
    have hc : c ∈ [1, 2, 4, 8] := by
      have := hsuit c (by simp)
      simp only [List.mem_cons, List.mem_singleton]
      tauto
    have hd : d ∈ [1, 2, 4, 8] := by
      have := hsuit d (by simp)
      simp only [List.mem_cons, List.mem_singleton]
      tauto
    have he : e ∈ [1, 2, 4, 8] := by
      have := hsuit e (by simp)
      simp only [List.mem_cons, List.mem_singleton]
      tauto
    have hflush : isFlushCheck [a, b, c, d, e] = (a == (b ||| c ||| d ||| e)) := rfl
    rw [hflush, key a ha b hb c hc d hd e he]
    constructor
    · rintro ⟨h1, h2, h3, h4⟩
      refine ⟨a, ?_⟩
      intro x hx
      simp only [List.mem_cons, List.not_mem_nil, or_false] at hx
      rcases hx with h | h | h | h | h <;> subst h <;> omega
    · rintro ⟨v, hv⟩
      have hav : a = v := hv a (by simp)
      have hbv : b = v := hv b (by simp)
      have hcv : c = v := hv c (by simp)
      have hdv : d = v := hv d (by simp)
      have hev : e = v := hv e (by simp)
      subst hav
      exact ⟨hbv, hcv, hdv, hev⟩

/-- C8: on duplicate-free hands the classifier follows the exact priority
royal flush > straight flush > flush > straight > high card, with the
source's straight and flush tests; moreover (on one-hot suit codes) the
flush test succeeds exactly when all five suits are equal. -/
theorem c8_main (hr ss : List Nat) (h5 : hr.length = 5) (hs5 : ss.length = 5)
    (hmem : ∀ r ∈ hr, 2 ≤ r ∧ r ≤ 14)
    (hsuit : ∀ x ∈ ss, x = 1 ∨ x = 2 ∨ x = 4 ∨ x = 8)
    (hnd : ∀ r ∈ hr, hr.count r ≤ 1) :
    (rankPokerHand hr ss).handRank =
      (if isFlushCheck ss && (countRanksBitwise hr == BROADWAY_HASH) then
        HandRank.royalFlush
      else if isStraightCheck (countRanksBitwise hr) && isFlushCheck ss then
        HandRank.straightFlush
      else if isFlushCheck ss then HandRank.flush
      else if isStraightCheck (countRanksBitwise hr) then HandRank.straight
      else HandRank.highCard) ∧
    (isFlushCheck ss = true ↔ ∃ v, ∀ x ∈ ss, x = v) := by
  have hnd4 : ∀ r ∈ hr, hr.count r ≤ 4 := fun r h => Nat.le_trans (hnd r h) (by norm_num)
  have hsig5 := sig_five_of_noDup hr h5 (mem_lt_15 hmem) (count_le_four hnd4) hnd
  constructor
  · unfold rankPokerHand
    rw [hsig5]
    simp only [ne_eq, not_true_eq_false, if_false, Bool.and_eq_true, beq_iff_eq,
      ite_not]
    split_ifs <;> rfl
  · exact isFlushCheck_iff ss hs5 hsuit

/-- C8 witness: the flush A,K,9,3,2 of hearts lands in the `flush` branch
of the priority chain. -/
theorem c8_witness :
    ([14, 13, 9, 3, 2] : List Nat).length = 5 ∧
    (∀ r ∈ ([14, 13, 9, 3, 2] : List Nat), 2 ≤ r ∧ r ≤ 14) ∧
    (∀ x ∈ ([4, 4, 4, 4, 4] : List Nat), x = 1 ∨ x = 2 ∨ x = 4 ∨ x = 8) ∧
    (∀ r ∈ ([14, 13, 9, 3, 2] : List Nat), ([14, 13, 9, 3, 2] : List Nat).count r ≤ 1) ∧
    ((rankPokerHand [14, 13, 9, 3, 2] [4, 4, 4, 4, 4]).handRank =
      (if isFlushCheck [4, 4, 4, 4, 4] &&
          (countRanksBitwise [14, 13, 9, 3, 2] == BROADWAY_HASH) then
        HandRank.royalFlush
      else if isStraightCheck (countRanksBitwise [14, 13, 9, 3, 2]) &&
          isFlushCheck [4, 4, 4, 4, 4] then
        HandRank.straightFlush
      else if isFlushCheck [4, 4, 4, 4, 4] then HandRank.flush
      else if isStraightCheck (countRanksBitwise [14, 13, 9, 3, 2]) then
        HandRank.straight
      else HandRank.highCard) ∧
      (isFlushCheck [4, 4, 4, 4, 4] = true ↔
        ∃ v, ∀ x ∈ ([4, 4, 4, 4, 4] : List Nat), x = v)) :=
  ⟨by decide, by decide, by decide, by decide,
    c8_main [14, 13, 9, 3, 2] [4, 4, 4, 4, 4]
      (by decide) (by decide) (by decide) (by decide) (by decide)⟩

/-- Folding the rank-bit OR is invariant under permutation of the cards. -/
theorem foldl_or_perm {l1 l2 : List Nat} (h : l1.Perm l2) :
    ∀ acc : Nat,
      l1.foldl (fun bitValue r => bitValue ||| (1 <<< r)) acc
        = l2.foldl (fun bitValue r => bitValue ||| (1 <<< r)) acc := by
  induction h with
  | nil => intro acc; rfl
  | cons x _ ih => intro acc; simp only [List.foldl_cons, ih]
  | swap x y l =>
      intro acc
      simp only [List.foldl_cons]
      congr 1
      rw [Nat.lor_assoc, Nat.lor_assoc, Nat.lor_comm (1 <<< y) (1 <<< x)]
  | trans _ _ ih1 ih2 => intro acc; rw [ih1, ih2]

/-- `countRanksBitwise` is permutation invariant. -/
theorem countRanksBitwise_perm {l1 l2 : List Nat} (h : l1.Perm l2) :
    countRanksBitwise l1 = countRanksBitwise l2 :=
  foldl_or_perm h 0

/-- `countDuplicatesBitwise` is permutation invariant on valid hands. -/
theorem countDuplicatesBitwise_perm {l1 l2 : List Nat} (h : l1.Perm l2)
    (hm : ∀ r ∈ l1, r < 15) (hc : ∀ r, l1.count r ≤ 4) :
    countDuplicatesBitwise l1 = countDuplicatesBitwise l2 := by
  have hm2 : ∀ r ∈ l2, r < 15 := fun r hrm => hm r (h.mem_iff.mpr hrm)
  have hc2 : ∀ r, l2.count r ≤ 4 := fun r => by
    rw [← h.count_eq]
    exact hc r
  rw [countDuplicatesBitwise_eq l1 hm hc, countDuplicatesBitwise_eq l2 hm2 hc2]
  apply nibSum_congr
  intro r _
  rw [h.count_eq]

/-- The flush test is invariant under permuting the (one-hot) suit list. -/
theorem isFlushCheck_perm (ss ss' : List Nat) (h : ss.Perm ss')
    (hs5 : ss.length = 5)
    (hsuit : ∀ x ∈ ss, x = 1 ∨ x = 2 ∨ x = 4 ∨ x = 8) :
    isFlushCheck ss = isFlushCheck ss' := by
  have hs5' : ss'.length = 5 := by rw [← h.length_eq, hs5]
  have hsuit' : ∀ x ∈ ss', x = 1 ∨ x = 2 ∨ x = 4 ∨ x = 8 :=
    fun x hx => hsuit x (h.mem_iff.mpr hx)
  have h1 := isFlushCheck_iff ss hs5 hsuit
  have h2 := isFlushCheck_iff ss' hs5' hsuit'
  have hEx : (∃ v, ∀ x ∈ ss, x = v) ↔ ∃ v, ∀ x ∈ ss', x = v := by
    constructor
    · rintro ⟨v, hv⟩
      exact ⟨v, fun x hx => hv x (h.mem_iff.mpr hx)⟩
    · rintro ⟨v, hv⟩
      exact ⟨v, fun x hx => hv x (h.mem_iff.mp hx)⟩
  cases hb1 : isFlushCheck ss <;> cases hb2 : isFlushCheck ss' <;> try rfl
  · rw [hb1] at h1
    rw [hb2] at h2
    exact absurd (hEx.mpr (h2.mp rfl)) (by simpa using h1)
  · rw [hb1] at h1
    rw [hb2] at h2
    exact absurd (hEx.mp (h1.mp rfl)) (by simpa using h2)

/-- C9: classification is independent of card order — permuting the five
(rank, suit) cards of a valid hand leaves the category unchanged. -/
theorem c9_main (hr ss hr' ss' : List Nat)
    (h5 : hr.length = 5) (hs5 : ss.length = 5)
    (h5' : hr'.length = 5) (hs5' : ss'.length = 5)
    (hperm : (hr.zip ss).Perm (hr'.zip ss'))
    (hmem : ∀ r ∈ hr, 2 ≤ r ∧ r ≤ 14) (hcnt : ∀ r ∈ hr, hr.count r ≤ 4)
    (hsuit : ∀ x ∈ ss, x = 1 ∨ x = 2 ∨ x = 4 ∨ x = 8) :
    (rankPokerHand hr' ss').handRank = (rankPokerHand hr ss).handRank := by
  have hrperm : hr.Perm hr' := by
    have hmap := hperm.map Prod.fst
    rwa [List.map_fst_zip hr ss (by omega), List.map_fst_zip hr' ss' (by omega)]
      at hmap
  have hsperm : ss.Perm ss' := by
    have hmap := hperm.map Prod.snd
    rwa [List.map_snd_zip hr ss (by omega), List.map_snd_zip hr' ss' (by omega)]
      at hmap
  have hcdb : countDuplicatesBitwise hr = countDuplicatesBitwise hr' :=
    countDuplicatesBitwise_perm hrperm (mem_lt_15 hmem) (count_le_four hcnt)
  have hbr : countRanksBitwise hr = countRanksBitwise hr' :=
    countRanksBitwise_perm hrperm
  have hfl : isFlushCheck ss = isFlushCheck ss' :=
    isFlushCheck_perm ss ss' hsperm hs5 hsuit
  unfold rankPokerHand
  rw [← hcdb, ← hbr, ← hfl]

/-- C9 witness: reversing the broadway hand with a spade-heavy suit vector
leaves the category (straight) unchanged. -/
theorem c9_witness :
    (([14, 13, 12, 11, 10].zip [1, 1, 1, 1, 8]).Perm
      (([10, 11, 12, 13, 14] : List Nat).zip ([8, 1, 1, 1, 1] : List Nat))) ∧
    (rankPokerHand [10, 11, 12, 13, 14] [8, 1, 1, 1, 1]).handRank
      = (rankPokerHand [14, 13, 12, 11, 10] [1, 1, 1, 1, 8]).handRank :=
  ⟨by decide,
    c9_main [14, 13, 12, 11, 10] [1, 1, 1, 1, 8] [10, 11, 12, 13, 14]
      [8, 1, 1, 1, 1] (by decide) (by decide) (by decide) (by decide) (by decide)
      (by decide) (by decide) (by decide)⟩

end WheelerDealer
